import Mathlib

/-
Verification of the Gutenberg corpus-extraction pipeline (gutenberg.py).

The development shallowly embeds the two core functions of the source:

  load_in_text        (the PreambleStripper: a line-oriented scanner with
                       boolean state reached_production_credits,
                       reached_end_of_preamble, inside_brackets)
  secondary_processing (the SentenceNormalizer: flatten, regex split on
                       sentence boundaries, rejoin, admission filter,
                       per-token case repair)

Python string primitives (rstrip, strip, split, upper, lower, title,
startswith, the three regexes) are embedded over List Char with ASCII
character semantics, matching the source regexes, which are themselves
ASCII character classes. Files are modelled as the list of their lines.
-/

/-! ### ASCII character primitives -/

def isUpperAZ (c : Char) : Bool := decide ('A' ≤ c ∧ c ≤ 'Z')

def isLowerAZ (c : Char) : Bool := decide ('a' ≤ c ∧ c ≤ 'z')

def isAlphaAZ (c : Char) : Bool := isUpperAZ c || isLowerAZ c

def isPunctTerm (c : Char) : Bool := decide (c = '.' ∨ c = '!' ∨ c = '?')

def pyIsSpace (c : Char) : Bool :=
  decide (c = ' ' ∨ c = '\t' ∨ c = '\n' ∨ c = '\r' ∨ c = '\x0b' ∨ c = '\x0c')

/-- Lookup-based character substitution: the first pair whose left component
equals the character gives the image, otherwise the character is kept. -/
def substChar : List (Char × Char) → Char → Char
  | [], c => c
  | p :: ps, c => if c = p.1 then p.2 else substChar ps c

/-- The lowercase ASCII letters paired with their uppercase forms. -/
def azPairs : List (Char × Char) :=
  [('a', 'A'), ('b', 'B'), ('c', 'C'), ('d', 'D'), ('e', 'E'), ('f', 'F'),
    ('g', 'G'), ('h', 'H'), ('i', 'I'), ('j', 'J'), ('k', 'K'), ('l', 'L'),
    ('m', 'M'), ('n', 'N'), ('o', 'O'), ('p', 'P'), ('q', 'Q'), ('r', 'R'),
    ('s', 'S'), ('t', 'T'), ('u', 'U'), ('v', 'V'), ('w', 'W'), ('x', 'X'),
    ('y', 'Y'), ('z', 'Z')]

/-- ASCII uppercase of one character, as Python str.upper does per char. -/
def upChar (c : Char) : Char := substChar azPairs c

/-- ASCII lowercase of one character, as Python str.lower does per char. -/
def lowChar (c : Char) : Char := substChar (azPairs.map Prod.swap) c

/-! ### List Char utilities (Python string methods) -/

/-- Python str.rstrip(): drop trailing whitespace. -/
def rstripL (cs : List Char) : List Char :=
  (cs.reverse.dropWhile pyIsSpace).reverse

/-- Python str.strip(): drop leading and trailing whitespace. -/
def stripL (cs : List Char) : List Char :=
  rstripL (cs.dropWhile pyIsSpace)

/-- Join character lists with a single separator character, Python sep.join. -/
def joinSepL (sep : Char) : List (List Char) → List Char
  | [] => []
  | [t] => t
  | t :: t' :: ts => t ++ sep :: joinSepL sep (t' :: ts)

/-- Python str.replace applied to erase every underscore. -/
def removeUnderscoreL (cs : List Char) : List Char :=
  cs.filter (fun c => decide (c ≠ '_'))

/-- Python str.split() with no argument: split on whitespace runs,
dropping empty pieces. The accumulator holds the current token reversed. -/
def pySplitGo : List Char → List Char → List (List Char)
  | [], acc => if acc = [] then [] else [acc.reverse]
  | c :: cs, acc =>
    if pyIsSpace c then
      if acc = [] then pySplitGo cs [] else acc.reverse :: pySplitGo cs []
    else pySplitGo cs (c :: acc)

/-- Python str.title() over ASCII: a letter after a non-letter is uppercased,
a letter after a letter is lowercased. The flag records whether the previous
character was a letter. -/
def pyTitleAux : Bool → List Char → List Char
  | _, [] => []
  | prev, c :: cs =>
    if isAlphaAZ c then
      (if prev then lowChar c else upChar c) :: pyTitleAux true cs
    else c :: pyTitleAux false cs

/-! ### String-level wrappers -/

def pyRstrip (s : String) : String := ⟨rstripL s.data⟩

def pyUpper (s : String) : String := ⟨s.data.map upChar⟩

def pyLower (s : String) : String := ⟨s.data.map lowChar⟩

def pyTitle (s : String) : String := ⟨pyTitleAux false s.data⟩

def pySplit (s : String) : List String :=
  (pySplitGo s.data []).map String.mk

def joinSepS (sep : Char) (ts : List String) : String :=
  ⟨joinSepL sep (ts.map String.data)⟩

def pyStartsWith (s pre : String) : Bool := pre.data.isPrefixOf s.data

def pyContains (s : String) (c : Char) : Bool := s.data.contains c

/-! ### The regexes of load_in_text -/

/-- Regex r'^[^A-Za-z"]' via re.match: the line is nonempty and its first
character is neither an ASCII letter nor a double quote. -/
def badFirstChar (s : String) : Bool :=
  match s.data with
  | [] => false
  | c :: _ => !(isAlphaAZ c || decide (c = '"'))

/-- First character is an ASCII letter or a double quote. -/
def goodFirstChar (s : String) : Bool :=
  match s.data with
  | [] => false
  | c :: _ => isAlphaAZ c || decide (c = '"')

/-- Scanner for regex r'.+ \d+\.?' under re.match, after at least one
non-newline character of the dot-prefix has been consumed: succeed when the
next two characters are a space and a digit, or extend the dot-prefix by one
further non-newline character. The optional trailing period constrains
nothing, because the match is not anchored at the end. -/
def pageNumAfter : List Char → Bool
  | [] => false
  | [_] => false
  | c :: d :: rest =>
    (decide (c = ' ') && d.isDigit) || (decide (c ≠ '\n') && pageNumAfter (d :: rest))

/-- Regex r'.+ \d+\.?' via re.match: some position at index at least one
holds a space immediately followed by a digit, with no newline before it. -/
def hasPageNum (s : String) : Bool :=
  match s.data with
  | [] => false
  | c :: rest => decide (c ≠ '\n') && pageNumAfter rest

/-! ### PreambleStripper: load_in_text -/

structure ScanState where
  rpc : Bool
  reop : Bool
  ib : Bool
deriving DecidableEq

def initState : ScanState := ⟨false, false, false⟩

/-- The content filter of load_in_text: a body line is discarded when it is
empty, starts with a character other than a letter or double quote, equals
its own uppercase transform, or matches the page-number regex. -/
def discardLine (l : String) : Bool :=
  decide (l.data = []) || badFirstChar l || decide (l = pyUpper l) || hasPageNum l

def isEndMarker (l : String) : Bool :=
  pyStartsWith l "End of Project Gutenberg" ||
  pyStartsWith l "End of the Project Gutenberg EBook"

/-- One iteration of the loop body of load_in_text. Returns the next state,
the emitted line if any, and whether the loop breaks. -/
def processLine (s : ScanState) (raw : String) : ScanState × Option String × Bool :=
  let line := pyRstrip raw
  if s.rpc = false then
    (⟨pyStartsWith line "Produced by", s.reop, s.ib⟩, none, false)
  else if s.reop = false then
    (⟨s.rpc, decide (line.data = []), s.ib⟩, none, false)
  else if pyStartsWith line "[" then
    (⟨s.rpc, s.reop, s.ib || !(pyContains line ']')⟩, none, false)
  else if s.ib then
    (⟨s.rpc, s.reop, s.ib && !(pyContains line ']')⟩, none, false)
  else if discardLine line then (s, none, false)
  else if isEndMarker line then (s, none, true)
  else (s, some line, false)

def loadLoop : ScanState → List String → List String
  | _, [] => []
  | s, raw :: ls =>
    let r := processLine s raw
    if r.2.2 then [] else r.2.1.toList ++ loadLoop r.1 ls

/-- load_in_text on a file given as its list of lines. -/
def load_in_text (ls : List String) : List String := loadLoop initState ls

/-! ### SentenceNormalizer: secondary_processing -/

/-- One attempted match of the splitter regex r'((\.|!|\?)"?) ([^a-z])' at the
head of the input: terminal punctuation, an optional double quote, a space,
and a character that is not a lowercase ASCII letter. On success returns
(group1, group2, group3, remainder after the whole match). -/
def matchBoundary : List Char → Option (List Char × Char × Char × List Char)
  | p :: c2 :: c3 :: x :: rest =>
    if c2 = '"' then
      if c3 = ' ' && isPunctTerm p && !isLowerAZ x then
        some ([p, '"'], p, x, rest)
      else none
    else if c2 = ' ' then
      if isPunctTerm p && !isLowerAZ c3 then some ([p], p, c3, x :: rest) else none
    else none
  | [p, c2, c3] =>
    if c2 = ' ' && isPunctTerm p && !isLowerAZ c3 then some ([p], p, c3, [])
    else none
  | _ => none

/-- re.split with the three capture groups: the text between matches and the
three groups of each match, in order, ending with the text after the last
match. Scans left to right, non-overlapping. The accumulator holds the
pending between-text reversed; the fuel is an upper bound on the scan length
so the recursion is structural. -/
def reSplitGo : Nat → List Char → List Char → List (List Char)
  | 0, acc, _ => [acc.reverse]
  | _ + 1, acc, [] => [acc.reverse]
  | fuel + 1, acc, c :: cs =>
    match matchBoundary (c :: cs) with
    | some (g1, g2, g3, rest) =>
      acc.reverse :: g1 :: [g2] :: [g3] :: reSplitGo fuel [] rest
    | none => reSplitGo fuel (c :: acc) cs

def reSplitText (cs : List Char) : List (List Char) :=
  reSplitGo cs.length [] cs

/-- Does a piece match re.match(r'^[\.\?!]', piece)? -/
def startsPunct : List Char → Bool
  | [] => false
  | c :: _ => isPunctTerm c

/-- The rejoin loop of secondary_processing: collect pieces while sentence
punctuation is still needed; a piece with leading punctuation present is
appended and clears the need; the next piece seals the buffer as one line
and is itself dropped. The final buffer is sealed with strip(). -/
def rejoinGo : Bool → List (List Char) → List (List Char) → List (List Char)
  | _, toJoin, [] => [stripL toJoin.reverse.flatten]
  | needP, toJoin, seg :: rest =>
    if needP then
      rejoinGo (needP && !startsPunct seg) (seg :: toJoin) rest
    else toJoin.reverse.flatten :: rejoinGo true [] rest

/-- The flattened, de-italicized text blob of secondary_processing. -/
def cleanText (raw : List String) : List Char :=
  removeUnderscoreL (joinSepL ' ' (raw.map String.data))

/-- The list named lines in secondary_processing: the re-segmented
sentence candidates, in order. -/
def sentenceLines (raw : List String) : List String :=
  (rejoinGo true [] (reSplitText (cleanText raw))).map String.mk

/-- The admission filter: length at least 20 and re.match(r'^[A-Z]'). -/
def startsCapital (s : String) : Bool :=
  match s.data with
  | [] => false
  | c :: _ => isUpperAZ c

def admittedLine (s : String) : Bool :=
  decide (20 ≤ s.length) && startsCapital s

/-- Python list.index for strings: position of the first occurrence. -/
def pyIndex (x : String) : List String → Nat
  | [] => 0
  | t :: ts => if t = x then 0 else pyIndex x ts + 1

/-- The token case-repair comprehension of secondary_processing: keep a token
that is not identical to its own uppercase transform; otherwise lowercase it
when the first occurrence of its value is not at the head of the token list,
else title-case it. -/
def fixTokens (tokens : List String) : List String :=
  tokens.map fun x =>
    if x ≠ pyUpper x then x
    else if x = pyUpper x ∧ 0 < pyIndex x tokens then pyLower x
    else pyTitle x

def fixLine (s : String) : String :=
  joinSepS ' ' (fixTokens (pySplit s))

/-- The list named lines_fixed: admitted sentences after case repair. -/
def secondaryLines (raw : List String) : List String :=
  (sentenceLines raw).filterMap fun l =>
    if admittedLine l then some (fixLine l) else none

/-- secondary_processing: the normalized output string, one sentence per
line, newline-separated. -/
def secondary_processing (raw : List String) : String :=
  joinSepS '\n' (secondaryLines raw)

/-- The token repair rule in the words of the amended claim C3: keep a token
not identical to its uppercase transform; otherwise title-case it when the
first occurrence of its value in the token list is at position zero, else
lowercase it. Stated from the claim side, to be compared with fixTokens. -/
def specRepair (tokens : List String) (x : String) : String :=
  if x ≠ pyUpper x then x
  else if pyIndex x tokens = 0 then pyTitle x
  else pyLower x

/-! ### Helper lemmas on the stripper -/

lemma discardLine_eq_false_iff (l : String) :
    discardLine l = false ↔
      (l.data ≠ [] ∧ goodFirstChar l = true ∧ l ≠ pyUpper l ∧ hasPageNum l = false) := by
  unfold discardLine badFirstChar goodFirstChar
  cases h : l.data with
  | nil => simp [h]
  | cons c cs =>
    simp only [h, Bool.or_eq_false_iff, decide_eq_false_iff_not, Bool.not_eq_false']
    constructor
    · rintro ⟨⟨⟨-, hb⟩, hu⟩, hp⟩
      exact ⟨by simp [h], hb, hu, hp⟩
    · rintro ⟨-, hb, hu, hp⟩
      exact ⟨⟨⟨by simp [h], hb⟩, hu⟩, hp⟩

lemma loadLoop_no_credits :
    ∀ ls : List String,
      (∀ l ∈ ls, pyStartsWith (pyRstrip l) "Produced by" = false) →
      loadLoop initState ls = []
  | [], _ => rfl
  | l :: ls, h => by
    have h1 : pyStartsWith (pyRstrip l) "Produced by" = false :=
      h l (List.mem_cons_self _ _)
    have h2 : ∀ x ∈ ls, pyStartsWith (pyRstrip x) "Produced by" = false :=
      fun x hx => h x (List.mem_cons_of_mem _ hx)
    have := loadLoop_no_credits ls h2
    simp only [loadLoop, processLine, initState, if_pos rfl, h1] at this ⊢
    simpa using this

/-! ### Claims C1, C4, C6, C7, C9 -/

/-- Claim C1: in the BODY phase, for a line that is not bracket-handled, not
inside a bracket region, and not an end-of-Gutenberg marker, the line is
appended if and only if it is nonempty, its first character is a letter or a
double quote, it differs from its own uppercase transform, and it does not
match the page-number pattern. -/
theorem c1_body_filter_iff (s : ScanState) (raw : String)
    (h1 : s.rpc = true) (h2 : s.reop = true) (h3 : s.ib = false)
    (h4 : pyStartsWith (pyRstrip raw) "[" = false)
    (h5 : isEndMarker (pyRstrip raw) = false) :
    (processLine s raw).2.1 = some (pyRstrip raw) ↔
      ((pyRstrip raw).data ≠ [] ∧ goodFirstChar (pyRstrip raw) = true ∧
        pyRstrip raw ≠ pyUpper (pyRstrip raw) ∧ hasPageNum (pyRstrip raw) = false) := by
  rw [← discardLine_eq_false_iff]
  simp only [processLine, h1, h2, h3, h4, h5]
  by_cases hd : discardLine (pyRstrip raw) = true <;> simp [hd]

/-- Witness for C1 at a concrete body line that passes the filter. -/
theorem c1_body_filter_iff_witness :
    (⟨true, true, false⟩ : ScanState).rpc = true ∧
    (processLine ⟨true, true, false⟩ "Hello there good friend.").2.1 =
      some (pyRstrip "Hello there good friend.") := by
  refine ⟨rfl, ?_⟩
  rw [c1_body_filter_iff ⟨true, true, false⟩ "Hello there good friend." rfl rfl rfl
    (by decide) (by decide)]
  decide

/-- Counterexample to claim C4 as stated: the line
End of Project Gutenberg 1 begins with the end marker and is reached in the
BODY phase, yet a later line still appears in the output, because the
content filter discards the marker line (it matches the page-number regex)
before the break test is reached. -/
theorem c4_counterexample :
    load_in_text
      ["Produced by X", "", "End of Project Gutenberg 1",
        "Hello there my good friends."] = ["Hello there my good friends."] ∧
    isEndMarker (pyRstrip "End of Project Gutenberg 1") = true := by decide

/-- Claim C4 (amended): stripping halts at, and excludes, the first BODY-phase
line beginning with the end marker that is not bracket-handled, not inside a
bracket region, and that survives the content filter; that line and all
subsequent lines contribute nothing to the output. -/
theorem c4_halt_on_end_marker (s : ScanState) (raw : String) (ls : List String)
    (h1 : s.rpc = true) (h2 : s.reop = true) (h3 : s.ib = false)
    (h4 : pyStartsWith (pyRstrip raw) "[" = false)
    (h5 : discardLine (pyRstrip raw) = false)
    (h6 : isEndMarker (pyRstrip raw) = true) :
    loadLoop s (raw :: ls) = [] := by
  simp [loadLoop, processLine, h1, h2, h3, h4, h5, h6]

/-- Witness for C4 (amended) at a concrete end-marker line. -/
theorem c4_halt_on_end_marker_witness :
    discardLine (pyRstrip "End of the Project Gutenberg EBook of X") = false ∧
    isEndMarker (pyRstrip "End of the Project Gutenberg EBook of X") = true ∧
    loadLoop ⟨true, true, false⟩
      ["End of the Project Gutenberg EBook of X", "Nice line here for keeping."] = [] :=
  ⟨by decide, by decide,
    c4_halt_on_end_marker ⟨true, true, false⟩ _ _ rfl rfl rfl (by decide) (by decide)
      (by decide)⟩

/-- Claim C6: no line is ever emitted from a state in which the
insideBracket flag is set, whatever the phase. -/
theorem c6_no_emit_inside_bracket (s : ScanState) (raw : String)
    (h : s.ib = true) : (processLine s raw).2.1 = none := by
  simp only [processLine]
  repeat' split <;> simp_all

/-- Witness for C6 at a concrete state and line. -/
theorem c6_no_emit_inside_bracket_witness :
    (⟨true, true, true⟩ : ScanState).ib = true ∧
    (processLine ⟨true, true, true⟩ "Good line stays here okay.").2.1 = none :=
  ⟨rfl, c6_no_emit_inside_bracket ⟨true, true, true⟩ _ rfl⟩

/-- Counterexample to claim C7 as stated: while insideBracket is true, the
line [inner] more contains a closing bracket, yet the flag is not cleared,
because the bracket-opening branch tests lines starting with an opening
bracket first; downstream, the whole document keeps discarding and the later
well-formed line never reaches the output. -/
theorem c7_counterexample :
    load_in_text
      ["Produced by X", "", "[start of note", "[inner] more",
        "This good line is long enough."] = [] ∧
    pyContains (pyRstrip "[inner] more") ']' = true ∧
    (processLine ⟨true, true, true⟩ "[inner] more").1.ib = true ∧
    (processLine ⟨true, true, true⟩ "[inner] more").2.1 = none := by decide

/-- Claim C7 (amended): while insideBracket is true every line is discarded
with no break; the flag is cleared exactly at a line that contains a closing
bracket and does not itself start with an opening bracket, and it stays set
on any line starting with an opening bracket. -/
theorem c7_inside_bracket_step (s : ScanState) (raw : String)
    (h1 : s.rpc = true) (h2 : s.reop = true) (h3 : s.ib = true) :
    (processLine s raw).2.1 = none ∧ (processLine s raw).2.2 = false ∧
    (processLine s raw).1.ib =
      (pyStartsWith (pyRstrip raw) "[" || !(pyContains (pyRstrip raw) ']')) := by
  simp only [processLine, h1, h2, h3]
  by_cases h4 : pyStartsWith (pyRstrip raw) "[" = true <;> simp [h4]

/-- Witness for C7 (amended): a closing line clears the flag and is dropped. -/
theorem c7_inside_bracket_step_witness :
    (processLine ⟨true, true, true⟩ "end of the note]").2.1 = none ∧
    (processLine ⟨true, true, true⟩ "end of the note]").1.ib =
      (pyStartsWith (pyRstrip "end of the note]") "[" ||
        !(pyContains (pyRstrip "end of the note]") ']')) :=
  ⟨(c7_inside_bracket_step ⟨true, true, true⟩ _ rfl rfl rfl).1,
    (c7_inside_bracket_step ⟨true, true, true⟩ _ rfl rfl rfl).2.2⟩

/-- Claim C9: on an input stream with no production-credit line, the scanner
never leaves its first phase, so the body sequence is empty, and the
normalizer maps the empty sequence to the empty string; both functions are
total, so no exception is possible in the model. -/
theorem c9_no_credits_empty (ls : List String)
    (h : ∀ l ∈ ls, pyStartsWith (pyRstrip l) "Produced by" = false) :
    load_in_text ls = [] ∧ secondary_processing [] = "" :=
  ⟨loadLoop_no_credits ls h, rfl⟩

/-- Witness for C9 at a concrete creditless document. -/
theorem c9_no_credits_empty_witness :
    load_in_text ["no produced line here", "Hello good sir today."] = [] ∧
    secondary_processing [] = "" :=
  c9_no_credits_empty _ (by decide)

/-! ### Claims C8, and counterexamples for C2, C3, C5 -/

/-- Counterexample to claim C8 as stated: on the scenario document, neither
claimed sentence is admitted. QUICK is the second token of its sentence, so
it is lowercased rather than title-cased, and It ran far. has only 11
characters, under the 20-character admission bound. -/
theorem c8_counterexample :
    ¬("The Quick fox jumped." ∈
        secondaryLines
          (load_in_text
            ["Produced by Jane Doe", "", "The QUICK fox jumped. It ran far."])) ∧
    ¬("It ran far." ∈
        secondaryLines
          (load_in_text
            ["Produced by Jane Doe", "", "The QUICK fox jumped. It ran far."])) := by
  decide

/-- Claim C8 (amended): on the scenario document the admitted sentence set is
exactly the single sentence The quick fox jumped. — the all-caps token is
lowercased because it is not the first token, and It ran far. is rejected by
the 20-character admission filter. -/
theorem c8_scenario :
    secondary_processing
      (load_in_text
        ["Produced by Jane Doe", "", "The QUICK fox jumped. It ran far."]) =
      "The quick fox jumped." := by decide

/-- Counterexample to claim C2 as stated: an admitted sentence with an
internal run of sixteen spaces passes the 20-character filter, but the
emitted line rejoins its tokens with single spaces and has only 8
characters. -/
theorem c2_counterexample :
    "Abcd ef." ∈ secondaryLines ["Abcd                ef."] ∧
    ("Abcd ef." : String).length < 20 := by decide

/-- Counterexample to claim C3 as stated: in the admitted sentence
DOG bit the DOG today. the second all-caps token DOG is not the first token,
so the claim lowercases it; the code keys on the first occurrence of the
value, which is at the head, and title-cases it instead. -/
theorem c3_counterexample :
    secondary_processing ["DOG bit the DOG today."] = "Dog bit the Dog today." ∧
    secondary_processing ["DOG bit the DOG today."] ≠ "Dog bit the dog today." := by
  decide

/-- Counterexample to claim C5 as stated: the output line
Q.aaa bbb ccc ddd eee satisfies the admission filter and has no all-caps
token, yet re-running the normalizer on the output merges it with its
neighbour, because it does not end in terminal punctuation. -/
theorem c5_counterexample :
    "Q.aaa bbb ccc ddd eee" ∈
      secondaryLines
        ["A! Q.aaa bbb ccc ddd eee. Fff ggg hhh iii jjj. Kkk lll mmm nnn ooo ppp."] ∧
    admittedLine "Q.aaa bbb ccc ddd eee" = true ∧
    (∀ t ∈ pySplit "Q.aaa bbb ccc ddd eee", t ≠ pyUpper t) ∧
    ¬("Q.aaa bbb ccc ddd eee" ∈
        secondaryLines
          (secondaryLines
            ["A! Q.aaa bbb ccc ddd eee. Fff ggg hhh iii jjj. Kkk lll mmm nnn ooo ppp."])) := by
  decide

/-! ### Character lemmas -/

lemma substChar_ws (ps : List (Char × Char))
    (h : ∀ p ∈ ps, pyIsSpace p.1 = false ∧ pyIsSpace p.2 = false) (c : Char) :
    pyIsSpace (substChar ps c) = pyIsSpace c := by
  induction ps with
  | nil => rfl
  | cons p ps ih =>
    simp only [substChar]
    split
    · rename_i hc
      subst hc
      rw [(h p (List.mem_cons_self _ _)).1, (h p (List.mem_cons_self _ _)).2]
    · exact ih fun q hq => h q (List.mem_cons_of_mem _ hq)

lemma substChar_ne_underscore (ps : List (Char × Char))
    (h : ∀ p ∈ ps, p.2 ≠ '_') (c : Char) (hc : c ≠ '_') :
    substChar ps c ≠ '_' := by
  induction ps with
  | nil => exact hc
  | cons p ps ih =>
    simp only [substChar]
    split
    · exact h p (List.mem_cons_self _ _)
    · exact ih fun q hq => h q (List.mem_cons_of_mem _ hq)

lemma substChar_of_fixed (ps : List (Char × Char))
    (h : ∀ p ∈ ps, c ≠ p.1) : substChar ps c = c := by
  induction ps with
  | nil => rfl
  | cons p ps ih =>
    simp only [substChar]
    rw [if_neg (h p (List.mem_cons_self _ _))]
    exact ih fun q hq => h q (List.mem_cons_of_mem _ hq)

lemma upChar_ws (c : Char) : pyIsSpace (upChar c) = pyIsSpace c :=
  substChar_ws azPairs (by decide) c

lemma lowChar_ws (c : Char) : pyIsSpace (lowChar c) = pyIsSpace c :=
  substChar_ws (azPairs.map Prod.swap) (by decide) c

lemma upChar_ne_underscore (c : Char) (h : c ≠ '_') : upChar c ≠ '_' :=
  substChar_ne_underscore azPairs (by decide) c h

lemma lowChar_ne_underscore (c : Char) (h : c ≠ '_') : lowChar c ≠ '_' :=
  substChar_ne_underscore (azPairs.map Prod.swap) (by decide) c h

lemma isUpperAZ_not_space (c : Char) (h : isUpperAZ c = true) :
    pyIsSpace c = false := by
  have hu := of_decide_eq_true h
  cases hp : pyIsSpace c
  · rfl
  · rcases of_decide_eq_true hp with h1 | h1 | h1 | h1 | h1 | h1 <;> subst h1 <;>
      exact absurd hu (by decide)

lemma isUpperAZ_not_punct (c : Char) (h : isUpperAZ c = true) :
    isPunctTerm c = false := by
  have hu := of_decide_eq_true h
  cases hp : isPunctTerm c
  · rfl
  · rcases of_decide_eq_true hp with h1 | h1 | h1 <;> subst h1 <;>
      exact absurd hu (by decide)

lemma upChar_of_upper (c : Char) (h : isUpperAZ c = true) : upChar c = c := by
  have hu := of_decide_eq_true h
  refine substChar_of_fixed azPairs fun p hp => ?_
  intro hc
  subst hc
  fin_cases hp <;> simp_all

lemma isUpperAZ_alpha (c : Char) (h : isUpperAZ c = true) : isAlphaAZ c = true := by
  unfold isAlphaAZ
  simp [h]

/-! ### Lemmas on pySplitGo, joinSepL and strip -/

lemma pySplitGo_tokens :
    ∀ (cs acc : List Char), (∀ c ∈ acc, pyIsSpace c = false) →
      ∀ t ∈ pySplitGo cs acc, t ≠ [] ∧ ∀ c ∈ t, pyIsSpace c = false
  | [], acc, hacc => by
    simp only [pySplitGo]
    split
    · simp
    · rename_i hne
      intro t ht
      rw [List.mem_singleton] at ht
      subst ht
      refine ⟨by simpa using hne, ?_⟩
      intro c hc
      exact hacc c (List.mem_reverse.mp hc)
  | c :: cs, acc, hacc => by
    simp only [pySplitGo]
    split
    · rename_i hws
      split
      · exact pySplitGo_tokens cs [] (by simp)
      · rename_i hne
        intro t ht
        rcases List.mem_cons.mp ht with h | h
        · subst h
          refine ⟨by simpa using hne, ?_⟩
          intro x hx
          exact hacc x (List.mem_reverse.mp hx)
        · exact pySplitGo_tokens cs [] (by simp) t h
    · rename_i hws
      refine pySplitGo_tokens cs (c :: acc) ?_
      intro x hx
      rcases List.mem_cons.mp hx with h | h
      · subst h
        cases hw : pyIsSpace x
        · rfl
        · exact absurd hw hws
      · exact hacc x h

lemma pySplitGo_mem :
    ∀ (cs acc : List Char), ∀ t ∈ pySplitGo cs acc, ∀ c ∈ t, c ∈ cs ∨ c ∈ acc
  | [], acc => by
    simp only [pySplitGo]
    split
    · simp
    · intro t ht c hc
      rw [List.mem_singleton] at ht
      subst ht
      exact Or.inr (List.mem_reverse.mp hc)
  | c :: cs, acc => by
    simp only [pySplitGo]
    split
    · split
      · intro t ht x hx
        rcases pySplitGo_mem cs [] t ht x hx with h | h
        · exact Or.inl (List.mem_cons_of_mem _ h)
        · simp at h
      · intro t ht x hx
        rcases List.mem_cons.mp ht with h | h
        · subst h
          exact Or.inr (List.mem_reverse.mp hx)
        · rcases pySplitGo_mem cs [] t h x hx with h' | h'
          · exact Or.inl (List.mem_cons_of_mem _ h')
          · simp at h'
    · intro t ht x hx
      rcases pySplitGo_mem cs (c :: acc) t ht x hx with h | h
      · exact Or.inl (List.mem_cons_of_mem _ h)
      · rcases List.mem_cons.mp h with h' | h'
        · exact Or.inl (h' ▸ List.mem_cons_self _ _)
        · exact Or.inr h'

lemma pySplitGo_append :
    ∀ (t cs acc : List Char), (∀ c ∈ t, pyIsSpace c = false) →
      pySplitGo (t ++ cs) acc = pySplitGo cs (t.reverse ++ acc)
  | [], cs, acc, _ => by simp
  | c :: t, cs, acc, h => by
    have hc : pyIsSpace c = false := h c (List.mem_cons_self _ _)
    simp only [List.cons_append, pySplitGo, hc, Bool.false_eq_true, if_false,
      List.append_eq]
    rw [pySplitGo_append t cs (c :: acc) fun x hx => h x (List.mem_cons_of_mem _ hx)]
    simp

lemma pySplitGo_acc_head :
    ∀ (cs acc : List Char), acc ≠ [] →
      ∃ w r, pySplitGo cs acc = (acc.reverse ++ w) :: r
  | [], acc, h => by
    refine ⟨[], [], ?_⟩
    simp only [pySplitGo]
    rw [if_neg h]
    simp
  | c :: cs, acc, h => by
    simp only [pySplitGo]
    split
    · exact ⟨[], pySplitGo cs [], by simp⟩
    · obtain ⟨w, r, hw⟩ := pySplitGo_acc_head cs (c :: acc) (by simp)
      refine ⟨c :: w, r, ?_⟩
      rw [hw]
      simp

lemma pySplitGo_join :
    ∀ ts : List (List Char), ts ≠ [] →
      (∀ t ∈ ts, t ≠ [] ∧ ∀ c ∈ t, pyIsSpace c = false) →
      pySplitGo (joinSepL ' ' ts) [] = ts
  | [], h, _ => absurd rfl h
  | [t], _, hts => by
    obtain ⟨hne, hws⟩ := hts t (List.mem_cons_self _ _)
    have := pySplitGo_append t [] [] hws
    simp only [List.append_nil] at this
    rw [joinSepL, this]
    simp only [pySplitGo]
    rw [if_neg (by simpa using hne)]
    simp
  | t :: t' :: ts, _, hts => by
    obtain ⟨hne, hws⟩ := hts t (List.mem_cons_self _ _)
    rw [joinSepL, pySplitGo_append t (' ' :: joinSepL ' ' (t' :: ts)) [] hws]
    simp only [List.append_nil, pySplitGo]
    rw [if_pos (by decide), if_neg (by simpa using hne)]
    rw [pySplitGo_join (t' :: ts) (by simp)
      (fun x hx => hts x (List.mem_cons_of_mem _ hx))]
    simp

lemma joinSepL_mem (sep : Char) :
    ∀ (ts : List (List Char)) (c : Char), c ∈ joinSepL sep ts →
      c = sep ∨ ∃ t ∈ ts, c ∈ t
  | [], c, h => by simp [joinSepL] at h
  | [t], c, h => by
    rw [joinSepL] at h
    exact Or.inr ⟨t, List.mem_cons_self _ _, h⟩
  | t :: t' :: ts, c, h => by
    rw [joinSepL] at h
    rcases List.mem_append.mp h with h1 | h1
    · exact Or.inr ⟨t, List.mem_cons_self _ _, h1⟩
    · rcases List.mem_cons.mp h1 with h2 | h2
      · exact Or.inl h2
      · rcases joinSepL_mem sep (t' :: ts) c h2 with h3 | ⟨u, hu, hc⟩
        · exact Or.inl h3
        · exact Or.inr ⟨u, List.mem_cons_of_mem _ hu, hc⟩

lemma joinSepL_head (sep : Char) (x : List Char) (xs : List (List Char)) :
    ∃ r, joinSepL sep (x :: xs) = x ++ r := by
  cases xs with
  | nil => exact ⟨[], by simp [joinSepL]⟩
  | cons x' xs => exact ⟨sep :: joinSepL sep (x' :: xs), rfl⟩

lemma joinSepL_rev_head :
    ∀ ts : List (List Char), ts ≠ [] →
      (∀ t ∈ ts, t ≠ [] ∧ ∀ c ∈ t, pyIsSpace c = false) →
      ∃ c cs, (joinSepL ' ' ts).reverse = c :: cs ∧ pyIsSpace c = false
  | [], h, _ => absurd rfl h
  | [t], _, hts => by
    obtain ⟨hne, hws⟩ := hts t (List.mem_cons_self _ _)
    rw [joinSepL]
    cases hr : t.reverse with
    | nil => exact absurd (by simpa using hr) hne
    | cons c cs =>
      refine ⟨c, cs, rfl, hws c ?_⟩
      have : c ∈ t.reverse := by rw [hr]; exact List.mem_cons_self _ _
      exact List.mem_reverse.mp this
  | t :: t' :: ts, _, hts => by
    obtain ⟨c, cs, hc, hws⟩ := joinSepL_rev_head (t' :: ts) (by simp)
      (fun x hx => hts x (List.mem_cons_of_mem _ hx))
    rw [joinSepL]
    refine ⟨c, cs ++ (' ' :: t.reverse), ?_, hws⟩
    rw [List.reverse_append, List.reverse_cons, hc]
    simp

lemma dropWhile_id_of_head (cs : List Char)
    (h : ∀ c, cs.head? = some c → pyIsSpace c = false) :
    cs.dropWhile pyIsSpace = cs := by
  cases cs with
  | nil => rfl
  | cons c cs =>
    rw [List.dropWhile_cons, h c rfl]
    simp

lemma stripL_id (cs : List Char)
    (h1 : ∀ c, cs.head? = some c → pyIsSpace c = false)
    (h2 : ∀ c, cs.reverse.head? = some c → pyIsSpace c = false) :
    stripL cs = cs := by
  unfold stripL rstripL
  rw [dropWhile_id_of_head cs h1, dropWhile_id_of_head cs.reverse h2,
    List.reverse_reverse]

lemma stripL_mem (cs : List Char) (c : Char) (h : c ∈ stripL cs) : c ∈ cs := by
  unfold stripL rstripL at h
  rw [List.mem_reverse] at h
  have h1 := (List.dropWhile_sublist _).mem h
  rw [List.mem_reverse] at h1
  exact (List.dropWhile_sublist _).mem h1

/-! ### Provenance lemmas for the splitter and rejoin -/

lemma matchBoundary_mem (cs : List Char) (g1 : List Char) (g2 g3 : Char)
    (rest : List Char) (h : matchBoundary cs = some (g1, g2, g3, rest)) :
    (∀ c ∈ g1, c ∈ cs) ∧ g2 ∈ cs ∧ g3 ∈ cs ∧ ∀ c ∈ rest, c ∈ cs := by
  match cs with
  | [] => exact absurd h (by simp [matchBoundary])
  | [p] => exact absurd h (by simp [matchBoundary])
  | [p, c2] => exact absurd h (by simp [matchBoundary])
  | [p, c2, c3] =>
    rw [matchBoundary] at h
    split at h
    · injection h with h'
      injection h' with e1 h'
      injection h' with e2 h'
      injection h' with e3 e4
      subst e1; subst e2; subst e3; subst e4
      rename_i hcond
      have hsp : c2 = ' ' := by
        rcases Bool.and_eq_true .. |>.mp (Bool.and_eq_true .. |>.mp hcond).1 with ⟨hs, _⟩
        exact of_decide_eq_true hs
      subst hsp
      refine ⟨?_, by simp, by simp, by simp⟩
      intro c hc
      rw [List.mem_singleton] at hc
      subst hc
      simp
    · exact absurd h (by simp)
  | p :: c2 :: c3 :: x :: rest' =>
    rw [matchBoundary] at h
    split at h
    · rename_i hq
      subst hq
      split at h
      · injection h with h'
        injection h' with e1 h'
        injection h' with e2 h'
        injection h' with e3 e4
        subst e1; subst e2; subst e3; subst e4
        rename_i hcond
        have hsp : c3 = ' ' := by
          rcases Bool.and_eq_true .. |>.mp (Bool.and_eq_true .. |>.mp hcond).1 with ⟨hs, _⟩
          exact of_decide_eq_true hs
        refine ⟨?_, by simp, by simp, ?_⟩
        · intro c hc
          rcases List.mem_cons.mp hc with h | h
          · subst h; simp
          · rw [List.mem_singleton] at h; subst h; simp
        · intro c hc
          simp [hc]
      · exact absurd h (by simp)
    · split at h
      · rename_i hsp
        subst hsp
        split at h
        · injection h with h'
          injection h' with e1 h'
          injection h' with e2 h'
          injection h' with e3 e4
          subst e1; subst e2; subst e3; subst e4
          refine ⟨?_, by simp, by simp, ?_⟩
          · intro c hc
            rw [List.mem_singleton] at hc
            subst hc
            simp
          · intro c hc
            simp [hc]
        · exact absurd h (by simp)
      · exact absurd h (by simp)

lemma reSplitGo_mem :
    ∀ (fuel : Nat) (acc cs : List Char), ∀ seg ∈ reSplitGo fuel acc cs,
      ∀ c ∈ seg, c ∈ acc ∨ c ∈ cs
  | 0, acc, cs => by
    intro seg hseg c hc
    rw [reSplitGo, List.mem_singleton] at hseg
    subst hseg
    exact Or.inl (List.mem_reverse.mp hc)
  | fuel + 1, acc, [] => by
    intro seg hseg c hc
    rw [reSplitGo, List.mem_singleton] at hseg
    subst hseg
    exact Or.inl (List.mem_reverse.mp hc)
  | fuel + 1, acc, c0 :: cs => by
    intro seg hseg c hc
    rw [reSplitGo] at hseg
    rcases hm : matchBoundary (c0 :: cs) with - | ⟨g1, g2, g3, rest⟩
    · rw [hm] at hseg
      rcases reSplitGo_mem fuel (c0 :: acc) cs seg hseg c hc with h | h
      · rcases List.mem_cons.mp h with h' | h'
        · exact Or.inr (h' ▸ List.mem_cons_self _ _)
        · exact Or.inl h'
      · exact Or.inr (List.mem_cons_of_mem _ h)
    · rw [hm] at hseg
      obtain ⟨hg1, hg2, hg3, hrest⟩ := matchBoundary_mem _ _ _ _ _ hm
      rcases List.mem_cons.mp hseg with h | h
      · subst h
        exact Or.inl (List.mem_reverse.mp hc)
      · rcases List.mem_cons.mp h with h | h
        · subst h
          exact Or.inr (hg1 c hc)
        · rcases List.mem_cons.mp h with h | h
          · subst h
            rw [List.mem_singleton] at hc
            exact Or.inr (hc ▸ hg2)
          · rcases List.mem_cons.mp h with h | h
            · subst h
              rw [List.mem_singleton] at hc
              exact Or.inr (hc ▸ hg3)
            · rcases reSplitGo_mem fuel [] rest seg h c hc with h' | h'
              · simp at h'
              · exact Or.inr (hrest c h')

lemma rejoinGo_mem :
    ∀ (segs : List (List Char)) (needP : Bool) (toJoin : List (List Char)),
      ∀ l ∈ rejoinGo needP toJoin segs, ∀ c ∈ l,
        (∃ t ∈ toJoin, c ∈ t) ∨ ∃ s ∈ segs, c ∈ s
  | [], needP, toJoin => by
    intro l hl c hc
    rw [rejoinGo, List.mem_singleton] at hl
    subst hl
    have h1 := stripL_mem _ _ hc
    rw [List.mem_flatten] at h1
    obtain ⟨t, ht, hct⟩ := h1
    exact Or.inl ⟨t, List.mem_reverse.mp ht, hct⟩
  | seg :: rest, needP, toJoin => by
    intro l hl c hc
    rw [rejoinGo] at hl
    split at hl
    · rcases rejoinGo_mem rest _ (seg :: toJoin) l hl c hc with ⟨t, ht, hct⟩ | ⟨s, hs, hcs⟩
      · rcases List.mem_cons.mp ht with h | h
        · exact Or.inr ⟨seg, List.mem_cons_self _ _, h ▸ hct⟩
        · exact Or.inl ⟨t, h, hct⟩
      · exact Or.inr ⟨s, List.mem_cons_of_mem _ hs, hcs⟩
    · rcases List.mem_cons.mp hl with h | h
      · subst h
        rw [List.mem_flatten] at hc
        obtain ⟨t, ht, hct⟩ := hc
        exact Or.inl ⟨t, List.mem_reverse.mp ht, hct⟩
      · rcases rejoinGo_mem rest true [] l h c hc with ⟨t, ht, -⟩ | ⟨s, hs, hcs⟩
        · simp at ht
        · exact Or.inr ⟨s, List.mem_cons_of_mem _ hs, hcs⟩

/-! ### Lemmas on pyTitleAux -/

lemma pyTitleAux_mem :
    ∀ (b : Bool) (cs : List Char), ∀ c ∈ pyTitleAux b cs,
      ∃ c0 ∈ cs, c = c0 ∨ c = upChar c0 ∨ c = lowChar c0
  | b, [] => by simp [pyTitleAux]
  | b, c0 :: cs => by
    intro c hc
    rw [pyTitleAux] at hc
    split at hc
    · rcases List.mem_cons.mp hc with h | h
      · refine ⟨c0, List.mem_cons_self _ _, ?_⟩
        split at h
        · exact Or.inr (Or.inr h)
        · exact Or.inr (Or.inl h)
      · obtain ⟨x, hx, heq⟩ := pyTitleAux_mem true cs c h
        exact ⟨x, List.mem_cons_of_mem _ hx, heq⟩
    · rcases List.mem_cons.mp hc with h | h
      · exact ⟨c0, List.mem_cons_self _ _, Or.inl h⟩
      · obtain ⟨x, hx, heq⟩ := pyTitleAux_mem false cs c h
        exact ⟨x, List.mem_cons_of_mem _ hx, heq⟩

lemma pyTitleAux_ne_nil (b : Bool) (cs : List Char) (h : cs ≠ []) :
    pyTitleAux b cs ≠ [] := by
  cases cs with
  | nil => exact absurd rfl h
  | cons c cs =>
    rw [pyTitleAux]
    split <;> simp

lemma pyTitleAux_head (cs : List Char) (c : Char) (rest : List Char)
    (h : cs = c :: rest) (hc : isAlphaAZ c = true) :
    pyTitleAux false cs = upChar c :: pyTitleAux true rest := by
  subst h
  rw [pyTitleAux]
  simp [hc]

/-! ### Shape lemmas for the normalizer output -/

lemma secondaryLines_shape (raw : List String) (l : String)
    (h : l ∈ secondaryLines raw) :
    ∃ s, s ∈ sentenceLines raw ∧ admittedLine s = true ∧ l = fixLine s := by
  unfold secondaryLines at h
  rw [List.mem_filterMap] at h
  obtain ⟨s, hs, hf⟩ := h
  by_cases ha : admittedLine s = true
  · rw [if_pos ha] at hf
    exact ⟨s, hs, ha, (Option.some.inj hf).symm⟩
  · rw [if_neg ha] at hf
    exact absurd hf (by simp)

lemma sentenceLines_chars (raw : List String) (s : String)
    (h : s ∈ sentenceLines raw) : ∀ c ∈ s.data, c ∈ cleanText raw := by
  unfold sentenceLines at h
  rw [List.mem_map] at h
  obtain ⟨ls, hls, rfl⟩ := h
  intro c hc
  rcases rejoinGo_mem _ true [] ls hls c hc with ⟨t, ht, -⟩ | ⟨seg, hseg, hcs⟩
  · simp at ht
  · unfold reSplitText at hseg
    rcases reSplitGo_mem _ [] _ seg hseg c hcs with h' | h'
    · simp at h'
    · exact h'

lemma cleanText_no_underscore (raw : List String) : '_' ∉ cleanText raw := by
  intro h
  unfold cleanText removeUnderscoreL at h
  have := List.of_mem_filter h
  simp at this

lemma pySplit_tokens (s : String) :
    ∀ t ∈ pySplit s, t.data ≠ [] ∧ ∀ c ∈ t.data, pyIsSpace c = false := by
  intro t ht
  unfold pySplit at ht
  rw [List.mem_map] at ht
  obtain ⟨tl, htl, rfl⟩ := ht
  exact pySplitGo_tokens s.data [] (by simp) tl htl

lemma pySplit_chars (s : String) :
    ∀ t ∈ pySplit s, ∀ c ∈ t.data, c ∈ s.data := by
  intro t ht c hc
  unfold pySplit at ht
  rw [List.mem_map] at ht
  obtain ⟨tl, htl, rfl⟩ := ht
  rcases pySplitGo_mem s.data [] tl htl c hc with h | h
  · exact h
  · simp at h

lemma pySplit_head (s : String) (c : Char) (cs0 : List Char)
    (hd : s.data = c :: cs0) (hc : pyIsSpace c = false) :
    ∃ w r, pySplitGo s.data [] = (c :: w) :: r := by
  rw [hd]
  simp only [pySplitGo, hc, Bool.false_eq_true, if_false]
  obtain ⟨w, r, hw⟩ := pySplitGo_acc_head cs0 [c] (by simp)
  refine ⟨w, r, ?_⟩
  rw [hw]
  simp

lemma fixTokens_cases (ts : List String) (t' : String) (h : t' ∈ fixTokens ts) :
    ∃ x ∈ ts, t' = x ∨ t' = pyLower x ∨ t' = pyTitle x := by
  unfold fixTokens at h
  rw [List.mem_map] at h
  obtain ⟨x, hx, rfl⟩ := h
  refine ⟨x, hx, ?_⟩
  split
  · exact Or.inl rfl
  · split
    · exact Or.inr (Or.inl rfl)
    · exact Or.inr (Or.inr rfl)

lemma pyLower_chars (x : String) (c : Char) (h : c ∈ (pyLower x).data) :
    ∃ c0 ∈ x.data, c = lowChar c0 := by
  unfold pyLower at h
  rw [show (⟨x.data.map lowChar⟩ : String).data = x.data.map lowChar from rfl,
    List.mem_map] at h
  obtain ⟨c0, hc0, heq⟩ := h
  exact ⟨c0, hc0, heq.symm⟩

lemma pyTitle_chars (x : String) (c : Char) (h : c ∈ (pyTitle x).data) :
    ∃ c0 ∈ x.data, c = c0 ∨ c = upChar c0 ∨ c = lowChar c0 :=
  pyTitleAux_mem false x.data c h

lemma fixTokens_preserve (ts : List String)
    (hts : ∀ t ∈ ts, t.data ≠ [] ∧ (∀ c ∈ t.data, pyIsSpace c = false) ∧
      ∀ c ∈ t.data, c ≠ '_') :
    ∀ t' ∈ fixTokens ts, t'.data ≠ [] ∧ (∀ c ∈ t'.data, pyIsSpace c = false) ∧
      ∀ c ∈ t'.data, c ≠ '_' := by
  intro t' ht'
  obtain ⟨x, hx, hcase⟩ := fixTokens_cases ts t' ht'
  obtain ⟨hne, hws, hu⟩ := hts x hx
  rcases hcase with rfl | rfl | rfl
  · exact ⟨hne, hws, hu⟩
  · refine ⟨?_, ?_, ?_⟩
    · intro hmap
      exact hne (by simpa [pyLower] using hmap)
    · intro c hc
      obtain ⟨c0, hc0, rfl⟩ := pyLower_chars x c hc
      rw [lowChar_ws]
      exact hws c0 hc0
    · intro c hc
      obtain ⟨c0, hc0, rfl⟩ := pyLower_chars x c hc
      exact lowChar_ne_underscore c0 (hu c0 hc0)
  · refine ⟨?_, ?_, ?_⟩
    · exact pyTitleAux_ne_nil false x.data hne
    · intro c hc
      obtain ⟨c0, hc0, heq⟩ := pyTitle_chars x c hc
      rcases heq with rfl | rfl | rfl
      · exact hws c hc0
      · rw [upChar_ws]
        exact hws c0 hc0
      · rw [lowChar_ws]
        exact hws c0 hc0
    · intro c hc
      obtain ⟨c0, hc0, heq⟩ := pyTitle_chars x c hc
      rcases heq with rfl | rfl | rfl
      · exact hu c hc0
      · exact upChar_ne_underscore c0 (hu c0 hc0)
      · exact lowChar_ne_underscore c0 (hu c0 hc0)

lemma fixTokens_eq_spec (ts : List String) :
    fixTokens ts = ts.map (specRepair ts) := by
  unfold fixTokens specRepair
  refine List.map_congr_left fun x _ => ?_
  by_cases h1 : x ≠ pyUpper x
  · rw [if_pos h1, if_pos h1]
  · rw [if_neg h1, if_neg h1]
    push_neg at h1
    by_cases h2 : pyIndex x ts = 0
    · rw [if_neg ?_, if_pos h2]
      rintro ⟨-, hp⟩
      rw [h2] at hp
      exact Nat.lt_irrefl 0 hp
    · rw [if_pos ⟨h1, Nat.pos_of_ne_zero h2⟩, if_neg h2]

lemma startsCapital_ne_nil (s : String) (h : startsCapital s = true) :
    s.data ≠ [] := by
  intro hnil
  unfold startsCapital at h
  rw [hnil] at h
  exact absurd h (by simp)

lemma startsCapital_cons (s : String) (c : Char) (cs0 : List Char)
    (hd : s.data = c :: cs0) (h : startsCapital s = true) : isUpperAZ c = true := by
  unfold startsCapital at h
  rw [hd] at h
  exact h

lemma fixTokens_head (t1 : String) (rest : List String) (c : Char) (w : List Char)
    (hd : t1.data = c :: w) (hc : isUpperAZ c = true) :
    ∃ w' rs, (fixTokens (t1 :: rest)).map String.data = (c :: w') :: rs := by
  unfold fixTokens
  rw [List.map_cons, List.map_cons]
  by_cases hne : t1 ≠ pyUpper t1
  · rw [if_pos hne]
    exact ⟨w, _, by rw [hd]⟩
  · rw [if_neg hne]
    have hidx : pyIndex t1 (t1 :: rest) = 0 := by
      unfold pyIndex
      rw [if_pos rfl]
    have hcond : ¬(t1 = pyUpper t1 ∧ 0 < pyIndex t1 (t1 :: rest)) := by
      rintro ⟨-, hp⟩
      rw [hidx] at hp
      exact Nat.lt_irrefl 0 hp
    rw [if_neg hcond]
    have hT : (pyTitle t1).data = c :: pyTitleAux true w := by
      show pyTitleAux false t1.data = c :: pyTitleAux true w
      rw [pyTitleAux_head t1.data c w hd (isUpperAZ_alpha c hc),
        upChar_of_upper c hc]
    rw [hT]
    exact ⟨pyTitleAux true w, _, rfl⟩

/-! ### Claims C2, C3, C10 -/

/-- Claim C2 (amended): every emitted line of the normalizer begins with an
uppercase ASCII letter, and it arises from an admitted sentence whose length
before token rejoining was at least 20; the emitted line itself can be
shorter, because the tokens are rejoined with single spaces. -/
theorem c2_output_first_upper (raw : List String) (l : String)
    (h : l ∈ secondaryLines raw) :
    (∃ c cs, l.data = c :: cs ∧ isUpperAZ c = true) ∧
    ∃ s, s ∈ sentenceLines raw ∧ 20 ≤ s.length ∧ l = fixLine s := by
  obtain ⟨s, hs, ha, rfl⟩ := secondaryLines_shape raw l h
  have ha' := ha
  unfold admittedLine at ha'
  rw [Bool.and_eq_true] at ha'
  obtain ⟨hlen, hcap⟩ := ha'
  refine ⟨?_, s, hs, of_decide_eq_true hlen, rfl⟩
  have hdne : s.data ≠ [] := startsCapital_ne_nil s hcap
  obtain ⟨c, cs0, hd⟩ : ∃ c cs0, s.data = c :: cs0 := by
    cases hcs : s.data with
    | nil => exact absurd hcs hdne
    | cons a b => exact ⟨a, b, rfl⟩
  have hcup := startsCapital_cons s c cs0 hd hcap
  have hcws := isUpperAZ_not_space c hcup
  obtain ⟨w, r, hw⟩ := pySplit_head s c cs0 hd hcws
  have hps : pySplit s = String.mk (c :: w) :: r.map String.mk := by
    unfold pySplit
    rw [hw, List.map_cons]
  obtain ⟨w', rs, hft⟩ :=
    fixTokens_head (String.mk (c :: w)) (r.map String.mk) c w rfl hcup
  have hdata : (fixLine s).data =
      joinSepL ' ' ((fixTokens (pySplit s)).map String.data) := rfl
  rw [hdata, hps, hft]
  obtain ⟨r2, hr2⟩ := joinSepL_head ' ' (c :: w') rs
  rw [hr2]
  exact ⟨c, w' ++ r2, by simp, hcup⟩

/-- Witness for C2 (amended) at a concrete document. -/
theorem c2_output_first_upper_witness :
    "Hello there my good friend." ∈
      secondaryLines ["Hello there my good friend."] ∧
    ∃ c cs, ("Hello there my good friend." : String).data = c :: cs ∧
      isUpperAZ c = true :=
  ⟨by decide,
    (c2_output_first_upper ["Hello there my good friend."]
      "Hello there my good friend." (by decide)).1⟩

/-- Claim C3 (amended): every emitted line is the space-join of the admitted
sentence tokens transformed by the first-occurrence repair rule: a token not
equal to its uppercase transform is kept; an all-caps token whose value first
occurs at the head of the token list is replaced by its Python title-cased
form, every other all-caps token by its lowercased form. -/
theorem c3_first_occurrence_rule (raw : List String) (l : String)
    (h : l ∈ secondaryLines raw) :
    ∃ s, s ∈ sentenceLines raw ∧
      l = joinSepS ' ' ((pySplit s).map (specRepair (pySplit s))) := by
  obtain ⟨s, hs, -, rfl⟩ := secondaryLines_shape raw l h
  refine ⟨s, hs, ?_⟩
  show joinSepS ' ' (fixTokens (pySplit s)) = _
  rw [fixTokens_eq_spec]

/-- Witness for C3 (amended) at a concrete document with an all-caps token. -/
theorem c3_first_occurrence_rule_witness :
    "Dog bit the Dog today." ∈ secondaryLines ["DOG bit the DOG today."] ∧
    ∃ s, s ∈ sentenceLines ["DOG bit the DOG today."] ∧
      "Dog bit the Dog today." =
        joinSepS ' ' ((pySplit s).map (specRepair (pySplit s))) :=
  ⟨by decide,
    c3_first_occurrence_rule ["DOG bit the DOG today."]
      "Dog bit the Dog today." (by decide)⟩

/-- Claim C10: every emitted line of the normalizer contains no underscore
and no newline, and equals the single-space join of its own
whitespace-split tokens, hence has single spaces between tokens and no
leading or trailing whitespace. -/
theorem c10_output_line_shape (raw : List String) (l : String)
    (h : l ∈ secondaryLines raw) :
    '_' ∉ l.data ∧ '\n' ∉ l.data ∧ l = joinSepS ' ' (pySplit l) := by
  obtain ⟨s, hs, ha, rfl⟩ := secondaryLines_shape raw l h
  have ha' := ha
  unfold admittedLine at ha'
  rw [Bool.and_eq_true] at ha'
  obtain ⟨hlen, hcap⟩ := ha'
  have hdne : s.data ≠ [] := startsCapital_ne_nil s hcap
  obtain ⟨c, cs0, hd⟩ : ∃ c cs0, s.data = c :: cs0 := by
    cases hcs : s.data with
    | nil => exact absurd hcs hdne
    | cons a b => exact ⟨a, b, rfl⟩
  have hcup := startsCapital_cons s c cs0 hd hcap
  have hcws := isUpperAZ_not_space c hcup
  have hts_ne : pySplit s ≠ [] := by
    obtain ⟨w, r, hw⟩ := pySplit_head s c cs0 hd hcws
    unfold pySplit
    rw [hw]
    simp
  have htok := pySplit_tokens s
  have hchars := pySplit_chars s
  have hund : ∀ t ∈ pySplit s, ∀ ch ∈ t.data, ch ≠ '_' := by
    intro t ht ch hch he
    subst he
    exact cleanText_no_underscore raw
      (sentenceLines_chars raw s hs '_' (hchars t ht '_' hch))
  have hfix := fixTokens_preserve (pySplit s)
    (fun t ht => ⟨(htok t ht).1, (htok t ht).2, hund t ht⟩)
  have hfts_ne : fixTokens (pySplit s) ≠ [] := by
    unfold fixTokens
    intro hm
    exact hts_ne (List.map_eq_nil_iff.mp hm)
  have hdata : (fixLine s).data =
      joinSepL ' ' ((fixTokens (pySplit s)).map String.data) := rfl
  have hjoin : pySplitGo (fixLine s).data [] =
      (fixTokens (pySplit s)).map String.data := by
    rw [hdata]
    refine pySplitGo_join _ ?_ ?_
    · intro hm
      exact hfts_ne (List.map_eq_nil_iff.mp hm)
    · intro tl htl
      rw [List.mem_map] at htl
      obtain ⟨t, ht, rfl⟩ := htl
      exact ⟨(hfix t ht).1, (hfix t ht).2.1⟩
  have hsplit_eq : pySplit (fixLine s) = fixTokens (pySplit s) := by
    unfold pySplit
    rw [hjoin, List.map_map]
    calc (fixTokens (pySplit s)).map (String.mk ∘ String.data)
        = (fixTokens (pySplit s)).map id :=
          List.map_congr_left (fun t _ => rfl)
      _ = fixTokens (pySplit s) := List.map_id _
  refine ⟨?_, ?_, ?_⟩
  · intro hin
    rw [hdata] at hin
    rcases joinSepL_mem ' ' _ '_' hin with h' | ⟨tl, htl, hmem⟩
    · exact absurd h' (by decide)
    · rw [List.mem_map] at htl
      obtain ⟨t, ht, rfl⟩ := htl
      exact (hfix t ht).2.2 '_' hmem rfl
  · intro hin
    rw [hdata] at hin
    rcases joinSepL_mem ' ' _ '\n' hin with h' | ⟨tl, htl, hmem⟩
    · exact absurd h' (by decide)
    · rw [List.mem_map] at htl
      obtain ⟨t, ht, rfl⟩ := htl
      exact absurd ((hfix t ht).2.1 '\n' hmem) (by decide)
  · rw [hsplit_eq]
    rfl

/-- Witness for C10 at a concrete document. -/
theorem c10_output_line_shape_witness :
    "The quick fox jumped." ∈
      secondaryLines ["The QUICK fox jumped. It ran far."] ∧
    ('_' ∉ ("The quick fox jumped." : String).data ∧
      '\n' ∉ ("The quick fox jumped." : String).data ∧
      ("The quick fox jumped." : String) =
        joinSepS ' ' (pySplit "The quick fox jumped.")) :=
  ⟨by decide,
    c10_output_line_shape ["The QUICK fox jumped. It ran far."]
      "The quick fox jumped." (by decide)⟩

/-! ### Claim C5 -/

/-- Claim C5 (amended): re-running the normalizer on a single output line
that satisfies the admission filter, has no all-caps token, no underscore,
is exactly the single-space join of its whitespace tokens, and contains no
occurrence of the sentence-boundary pattern, returns the line unchanged.
Re-running it on a whole multi-line output can merge neighbours when a line
lacks terminal punctuation, as the counterexample shows. -/
theorem c5_single_sentence_idempotent (y : String)
    (h1 : 20 ≤ y.length) (h2 : startsCapital y = true)
    (h3 : ∀ t ∈ pySplit y, t ≠ pyUpper t) (h4 : '_' ∉ y.data)
    (h5 : y = joinSepS ' ' (pySplit y)) (h6 : reSplitText y.data = [y.data]) :
    secondary_processing [y] = y := by
  have hdne : y.data ≠ [] := startsCapital_ne_nil y h2
  obtain ⟨c, cs0, hd⟩ : ∃ c cs0, y.data = c :: cs0 := by
    cases hcs : y.data with
    | nil => exact absurd hcs hdne
    | cons a b => exact ⟨a, b, rfl⟩
  have hcup := startsCapital_cons y c cs0 hd h2
  have hclean : cleanText [y] = y.data := by
    unfold cleanText removeUnderscoreL
    rw [show ([y] : List String).map String.data = [y.data] from rfl, joinSepL]
    refine List.filter_eq_self.mpr fun ch hch => decide_eq_true fun he => ?_
    exact h4 (he ▸ hch)
  have hts_ne : pySplit y ≠ [] := by
    intro hnil
    rw [hnil] at h5
    exact hdne (congrArg String.data h5)
  have hys : y.data = joinSepL ' ' ((pySplit y).map String.data) :=
    congrArg String.data h5
  obtain ⟨cl, csl, hrv, hclws⟩ :
      ∃ cl csl, y.data.reverse = cl :: csl ∧ pyIsSpace cl = false := by
    rw [hys]
    refine joinSepL_rev_head _ ?_ ?_
    · intro hm
      exact hts_ne (List.map_eq_nil_iff.mp hm)
    · intro tl htl
      rw [List.mem_map] at htl
      obtain ⟨t, ht, rfl⟩ := htl
      exact pySplit_tokens y t ht
  have hstrip : stripL y.data = y.data := by
    refine stripL_id y.data ?_ ?_
    · intro ch hch
      simp only [hd, List.head?_cons, Option.some.injEq] at hch
      subst hch
      exact isUpperAZ_not_space c hcup
    · intro ch hch
      simp only [hrv, List.head?_cons, Option.some.injEq] at hch
      subst hch
      exact hclws
  have hsp : startsPunct y.data = false := by
    rw [hd]
    show isPunctTerm c = false
    exact isUpperAZ_not_punct c hcup
  have e12 : rejoinGo true [] [y.data] = [stripL y.data] := by
    simp only [rejoinGo, if_true]
    simp
  have hsent : sentenceLines [y] = [y] := by
    unfold sentenceLines
    rw [hclean, h6, e12, hstrip]
    rfl
  have hadm : admittedLine y = true := by
    unfold admittedLine
    rw [Bool.and_eq_true]
    exact ⟨decide_eq_true h1, h2⟩
  have hfixtok : fixTokens (pySplit y) = pySplit y := by
    unfold fixTokens
    calc (pySplit y).map _ = (pySplit y).map id :=
        List.map_congr_left fun x hx => by
          rw [if_pos (h3 x hx)]
          rfl
      _ = pySplit y := List.map_id _
  have hfixline : fixLine y = y := by
    unfold fixLine
    rw [hfixtok]
    exact h5.symm
  show joinSepS '\n' (secondaryLines [y]) = y
  unfold secondaryLines
  rw [hsent,
    show ([y].filterMap fun l => if admittedLine l then some (fixLine l) else none) =
      [fixLine y] from by simp [hadm],
    hfixline]
  rfl

/-- Witness for C5 (amended) at a concrete clean sentence. -/
theorem c5_single_sentence_idempotent_witness :
    20 ≤ ("The quick brown fox runs." : String).length ∧
    secondary_processing ["The quick brown fox runs."] =
      "The quick brown fox runs." :=
  ⟨by decide,
    c5_single_sentence_idempotent "The quick brown fox runs." (by decide)
      (by decide) (by decide) (by decide) (by decide) (by decide)⟩
